import Mathlib

/-!
# Verification of the lazy-image-comparer core (src/lib.rs)

Shallow embedding of the four pure core functions of the repository:

* `average_gb_blocks` — partitions a raster into `x_segments × y_segments`
  rectangular blocks and returns the per-channel integer mean of each block,
  row-major (outer loop over `y`, inner loop over `x`).
* `compare_images_chisquare` — the scalar comparator: sum of squared
  per-channel differences over the zipped grids, divided by the number of
  scalar comparisons.
* `compare_images_chisquare_glam` — the data-parallel (4-lane) comparator
  over the flattened channel-byte streams.
* `smallest_dimensions` — selects the raster of strictly smaller pixel area
  (ties go to the second argument).

Modelling conventions:
* `u8` channel values are natural numbers; the `Raster` structure carries the
  proof that every channel is `< 256`, which is what the Rust type `u8`
  guarantees.  The `as u8` narrowing cast in the source is modelled as `% 256`.
* Machine integers (`u32` dimensions, `u64` accumulators, `usize` counts) are
  modelled as unbounded naturals.  For the `u64` pixel-sum accumulators the
  spec itself states they are wide enough to avoid overflow; no claim here
  concerns wrap-around behaviour.
* `f64` arithmetic on these inputs is exact (all intermediate values are
  integers far below `2^53`, and a single final division is performed), so it
  is modelled by exact rational arithmetic.  The one non-real `f64` outcome
  reachable in the source is `0.0 / 0.0 = NaN` when the comparison count is
  zero; a division whose divisor is zero is therefore modelled as `none`.
* A Rust panic (failed `assert_eq!`, integer division by zero, or
  `Option::unwrap` on `None`) is modelled as the result `none`: the function
  does not return a value.
-/

/-- An RGB triple of channel values (each a `u8` in the source). -/
abbrev Rgb : Type := ℕ × ℕ × ℕ

/-- A decoded raster: dimensions plus per-coordinate pixel read access.
`pixel x y` returns the (R, G, B) channels of the pixel at `(x, y)`; the
alpha channel of the source's `Rgba` is read but discarded, so it is not
modelled.  `pixel_lt` records that channels are `u8` values. -/
structure Raster where
  width : ℕ
  height : ℕ
  pixel : ℕ → ℕ → Rgb
  pixel_lt : ∀ x y, (pixel x y).1 < 256 ∧ (pixel x y).2.1 < 256 ∧ (pixel x y).2.2 < 256

/-- The extent of segment `idx` out of `segs` segments covering `total`
pixels: `total / segs` (floor) for every segment but the last, and the
remainder-absorbing `total - (total / segs) * (segs - 1)` for the last one.
This is the `current_block_width` / `current_block_height` computation of
`average_gb_blocks` in the source. -/
def currentSegment (total segs idx : ℕ) : ℕ :=
  if idx = segs - 1 then total - (total / segs) * (segs - 1) else total / segs

/-- The cell indices `(x, y)` in the order the source's nested loops visit
them: outer loop over `y in 0..y_segments`, inner loop over
`x in 0..x_segments` (row-major). -/
def blockCoords (xs ys : ℕ) : List (ℕ × ℕ) :=
  (List.range ys).flatMap (fun y => (List.range xs).map (fun x => (x, y)))

/-- The body of the source's block loop for cell `(x, y)`: sum each channel
over the block's rectangle, count its pixels, and divide.  The Rust `u64`
division `sum / pixel_count` panics when `pixel_count = 0`, modelled as
`none`; the `as u8` cast of each quotient is modelled as `% 256`. -/
def blockAverage (img : Raster) (xs ys x y : ℕ) : Option Rgb :=
  let bw := img.width / xs
  let bh := img.height / ys
  let cbw := currentSegment img.width xs x
  let cbh := currentSegment img.height ys y
  let sum_r := ∑ i ∈ Finset.range cbw, ∑ j ∈ Finset.range cbh,
    (img.pixel (x * bw + i) (y * bh + j)).1
  let sum_g := ∑ i ∈ Finset.range cbw, ∑ j ∈ Finset.range cbh,
    (img.pixel (x * bw + i) (y * bh + j)).2.1
  let sum_b := ∑ i ∈ Finset.range cbw, ∑ j ∈ Finset.range cbh,
    (img.pixel (x * bw + i) (y * bh + j)).2.2
  let pixel_count := cbw * cbh
  if pixel_count = 0 then none
  else some (sum_r / pixel_count % 256, sum_g / pixel_count % 256, sum_b / pixel_count % 256)

/-- Run `f` over a list, collecting the results in order and failing as soon
as one call fails — the semantics of the source's loop that pushes each block
average into a `Vec` and aborts (panics) at the first failing block. -/
def traverseOpt (f : α → Option β) : List α → Option (List β)
  | [] => some []
  | a :: l =>
    match f a, traverseOpt f l with
    | some b, some bs => some (b :: bs)
    | _, _ => none

/-- `average_gb_blocks` from the source.  `x_segments = 0` or
`y_segments = 0` makes the very first integer division
(`img_width / x_segments`, `img_height / y_segments`) panic, modelled as
`none`; otherwise each cell is averaged in row-major order, any cell with a
zero pixel count panicking in turn. -/
def average_gb_blocks (img : Raster) (xs ys : ℕ) : Option (List Rgb) :=
  if xs = 0 ∨ ys = 0 then none
  else traverseOpt (fun c => blockAverage img xs ys c.1 c.2) (blockCoords xs ys)

/-- `f64` division as used by the comparators: the divisor is a comparison
count cast from an integer.  A zero count gives `0.0 / 0.0 = NaN`, a value
that is not a (non-negative) real number, modelled as `none`; otherwise the
quotient of integers this small is exact. -/
def f64Div (a : ℚ) (b : ℕ) : Option ℚ :=
  if b = 0 then none else some (a / b)

/-- The squared per-channel difference summed by the scalar comparator for
one zipped pair of blocks: `expected` is the first grid's block, `observed`
the second's, and the inner loop adds `(observed - expected)^2` for each of
the three channels. -/
def chiTerm (p : Rgb × Rgb) : ℚ :=
  ((p.2.1 : ℚ) - (p.1.1 : ℚ)) ^ 2 + ((p.2.2.1 : ℚ) - (p.1.2.1 : ℚ)) ^ 2 +
    ((p.2.2.2 : ℚ) - (p.1.2.2 : ℚ)) ^ 2

/-- `compare_images_chisquare` from the source: zip the two grids (stopping
at the shorter one), accumulate the squared channel differences, and divide
by `total_count`, the number of scalar comparisons performed (3 per zipped
pair).  The commented-out `expected > 0` normalisation branch in the source
is disabled, so this is the unnormalised sum-of-squared-differences
variant. -/
def compare_images_chisquare (img1 img2 : List Rgb) : Option ℚ :=
  let pairs := img1.zip img2
  f64Div ((pairs.map chiTerm).sum) (3 * pairs.length)

/-- The flattened channel-byte stream of a grid: `bytemuck::cast_slice`
turns `&[[u8; 3]]` into `&[u8]`, laying out each block's R, G, B bytes in
order. -/
def flattenBytes (img : List Rgb) : List ℕ :=
  img.flatMap (fun p => [p.1, p.2.1, p.2.2])

/-- One step of the vectorised comparator's chunk loop, carried out on the
four accumulator lanes: draw four zipped byte pairs from the chunk
(`chunk.next().unwrap()` four times — a chunk shorter than 4 hits `None` and
panics) and add each squared difference to its lane.  `DVec4::powf(2.0)`
squares each (possibly negative) integer-valued lane exactly. -/
def glamLoop : List (ℕ × ℕ) → (ℚ × ℚ × ℚ × ℚ) → Option (ℚ × ℚ × ℚ × ℚ)
  | [], acc => some acc
  | (e1, o1) :: (e2, o2) :: (e3, o3) :: (e4, o4) :: rest, acc =>
    glamLoop rest
      (acc.1 + ((o1 : ℚ) - (e1 : ℚ)) ^ 2, acc.2.1 + ((o2 : ℚ) - (e2 : ℚ)) ^ 2,
       acc.2.2.1 + ((o3 : ℚ) - (e3 : ℚ)) ^ 2, acc.2.2.2 + ((o4 : ℚ) - (e4 : ℚ)) ^ 2)
  | _, _ => none

/-- The chunks of (at most) 4 elements produced by `itertools`'
`chunks(4)` over a sequence: every chunk is full except possibly the last. -/
def chunks4 : List α → List (List α)
  | [] => []
  | a :: b :: c :: d :: rest => [a, b, c, d] :: chunks4 rest
  | rest => [rest]

/-- `compare_images_chisquare_glam` from the source.  The two `assert_eq!`
length checks panic (`none`) unless both grid lengths are multiples of 4;
`total_count` is `min` of the grid lengths times 3, computed before the
grids are flattened; the chunk loop accumulates the four lanes over the
zipped byte streams; `element_sum` adds the lanes and the result is divided
by `total_count`. -/
def compare_images_chisquare_glam (img1 img2 : List Rgb) : Option ℚ :=
  if img1.length % 4 = 0 ∧ img2.length % 4 = 0 then
    let total_count := min img1.length img2.length * 3
    match glamLoop ((flattenBytes img1).zip (flattenBytes img2)) (0, 0, 0, 0) with
    | some acc => f64Div (acc.1 + acc.2.1 + acc.2.2.1 + acc.2.2.2) total_count
    | none => none
  else none

/-- `smallest_dimensions` from the source: compare the two pixel areas and
return a selector (`0` for the first raster, `1` for the second) together
with the selected raster's dimensions; equality falls into the `else`
branch, selecting the second raster. -/
def smallest_dimensions (img1 img2 : Raster) : ℤ × ℕ × ℕ :=
  if img1.width * img1.height < img2.width * img2.height then
    (0, img1.width, img1.height)
  else
    (1, img2.width, img2.height)

/-- Stated from the spec's description of a Block Average: the per-channel
arithmetic mean, with integer (floor) truncation, of all pixels inside the
rectangle of cell `(x, y)` — the rectangle starting at
`(x * block_width, y * block_height)` extending over the cell's current
width and height.  Used to state what `average_gb_blocks` must compute for
each cell. -/
def blockMean (img : Raster) (xs ys x y : ℕ) : Rgb :=
  let x0 := x * (img.width / xs)
  let y0 := y * (img.height / ys)
  let cbw := currentSegment img.width xs x
  let cbh := currentSegment img.height ys y
  ((∑ px ∈ Finset.Ico x0 (x0 + cbw), ∑ py ∈ Finset.Ico y0 (y0 + cbh),
      (img.pixel px py).1) / (cbw * cbh),
   (∑ px ∈ Finset.Ico x0 (x0 + cbw), ∑ py ∈ Finset.Ico y0 (y0 + cbh),
      (img.pixel px py).2.1) / (cbw * cbh),
   (∑ px ∈ Finset.Ico x0 (x0 + cbw), ∑ py ∈ Finset.Ico y0 (y0 + cbh),
      (img.pixel px py).2.2) / (cbw * cbh))

/-- A 2 × 3 all-black raster, used as a concrete witness input. -/
def rasterA : Raster :=
  ⟨2, 3, fun _ _ => (0, 0, 0), fun _ _ => by norm_num⟩

/-- A 3 × 2 uniform raster (same pixel area as `rasterA`), used as a
concrete witness input. -/
def rasterB : Raster :=
  ⟨3, 2, fun _ _ => (7, 7, 7), fun _ _ => by norm_num⟩

/-- A 1 × 2 raster of strictly smaller area than `rasterB`, used as a
concrete witness input. -/
def rasterC : Raster :=
  ⟨1, 2, fun _ _ => (200, 100, 50), fun _ _ => by norm_num⟩

/-- Every summand accumulated by the scalar comparator is a sum of squares,
hence non-negative. -/
theorem chiTerm_nonneg (p : Rgb × Rgb) : 0 ≤ chiTerm p := by
  unfold chiTerm
  positivity

/-- The accumulated chi-square sum is non-negative. -/
theorem chiSum_nonneg (l : List (Rgb × Rgb)) : 0 ≤ (l.map chiTerm).sum := by
  induction l with
  | nil => simp
  | cons a l ih =>
    simp only [List.map_cons, List.sum_cons]
    have := chiTerm_nonneg a
    linarith

/-- Swapping the two blocks of a pair leaves the squared-difference term
unchanged. -/
theorem chiTerm_comm (a b : Rgb) : chiTerm (a, b) = chiTerm (b, a) := by
  unfold chiTerm
  ring

/-- Swapping the two grids leaves the accumulated chi-square sum
unchanged. -/
theorem chiSum_comm : ∀ A B : List Rgb,
    ((A.zip B).map chiTerm).sum = ((B.zip A).map chiTerm).sum := by
  intro A
  induction A with
  | nil => intro B; cases B <;> rfl
  | cons a A ih =>
    intro B
    cases B with
    | nil => rfl
    | cons b B =>
      simp only [List.zip_cons_cons, List.map_cons, List.sum_cons, ih B, chiTerm_comm a b]

/-- Comparing a grid with itself accumulates a zero sum. -/
theorem chiSum_self (A : List Rgb) : ((A.zip A).map chiTerm).sum = 0 := by
  induction A with
  | nil => rfl
  | cons a A ih =>
    simp only [List.zip_cons_cons, List.map_cons, List.sum_cons, ih, add_zero]
    unfold chiTerm
    ring

/-- The chi-square sum over the zipped grids, re-expressed as an indexed sum
over the first `min |A| |B|` positions. -/
theorem chiSum_eq_finsetSum : ∀ A B : List Rgb,
    ((A.zip B).map chiTerm).sum =
      ∑ i ∈ Finset.range (min A.length B.length),
        chiTerm (A.getD i (0, 0, 0), B.getD i (0, 0, 0)) := by
  intro A
  induction A with
  | nil => intro B; simp
  | cons a A ih =>
    intro B
    cases B with
    | nil => simp
    | cons b B =>
      simp only [List.zip_cons_cons, List.map_cons, List.sum_cons, ih B,
        List.length_cons, Nat.succ_min_succ, Finset.sum_range_succ',
        List.getD_cons_succ, List.getD_cons_zero]
      exact add_comm _ _

/-- C2: `compare_images_chisquare(A, B)` is the sum, over the first
`min(|A|, |B|)` paired blocks and each of the 3 channels, of the squared
channel difference (second grid minus first grid), divided by
`3 × min(|A|, |B|)`; pairing stops at the shorter grid and the longer
grid's tail is ignored. -/
theorem claim_C2_scalar_formula (A B : List Rgb) (h : 0 < min A.length B.length) :
    compare_images_chisquare A B =
      some ((∑ i ∈ Finset.range (min A.length B.length),
          ((((B.getD i (0, 0, 0)).1 : ℚ) - ((A.getD i (0, 0, 0)).1 : ℚ)) ^ 2
            + (((B.getD i (0, 0, 0)).2.1 : ℚ) - ((A.getD i (0, 0, 0)).2.1 : ℚ)) ^ 2
            + (((B.getD i (0, 0, 0)).2.2 : ℚ) - ((A.getD i (0, 0, 0)).2.2 : ℚ)) ^ 2))
        / (3 * min A.length B.length)) := by
  show f64Div ((List.map chiTerm (A.zip B)).sum) (3 * (A.zip B).length) = _
  unfold f64Div
  rw [chiSum_eq_finsetSum, List.length_zip]
  rw [if_neg (by omega)]
  rw [show ((3 * (A.length ⊓ B.length) : ℕ) : ℚ) = 3 * ((A.length ⊓ B.length : ℕ) : ℚ) by
    push_cast
    ring]
  rfl

/-- Witness for C2 at a pair of concrete grids of different lengths: only the
single paired block is compared and the score is `(1 + 4 + 9) / 3`. -/
theorem claim_C2_witness :
    0 < min ([(0, 0, 0), (3, 4, 5)] : List Rgb).length [(1, 2, 3)].length ∧
      compare_images_chisquare [(0, 0, 0), (3, 4, 5)] [(1, 2, 3)] = some (14 / 3) := by
  refine ⟨by decide, ?_⟩
  rw [claim_C2_scalar_formula [(0, 0, 0), (3, 4, 5)] [(1, 2, 3)] (by decide)]
  norm_num [Finset.sum_range_succ]

/-- C7 counterexample: on two empty grids no comparison is performed, so the
source computes `0.0 / 0.0`, which is NaN — not a non-negative real number.
The model returns `none` for that division. -/
theorem claim_C7_counterexample : compare_images_chisquare [] [] = none := rfl

/-- C7 (amended): for every pair of grids with at least one paired block
(both grids non-empty), `compare_images_chisquare(A, B)` returns a
non-negative rational score; when no block is paired the division
`0.0 / 0.0` yields NaN instead of a non-negative real. -/
theorem claim_C7_nonneg (A B : List Rgb) (h : 0 < min A.length B.length) :
    ∃ q : ℚ, compare_images_chisquare A B = some q ∧ 0 ≤ q := by
  show ∃ q, f64Div ((List.map chiTerm (A.zip B)).sum) (3 * (A.zip B).length) = some q ∧ 0 ≤ q
  unfold f64Div
  rw [List.length_zip, if_neg (by omega)]
  refine ⟨_, rfl, ?_⟩
  have h1 := chiSum_nonneg (A.zip B)
  positivity

/-- Witness for C7 at a concrete non-empty pair of grids. -/
theorem claim_C7_witness :
    0 < min ([(9, 9, 9)] : List Rgb).length [(1, 2, 3), (4, 5, 6)].length ∧
      ∃ q : ℚ, compare_images_chisquare [(9, 9, 9)] [(1, 2, 3), (4, 5, 6)] = some q ∧ 0 ≤ q :=
  ⟨by decide, claim_C7_nonneg [(9, 9, 9)] [(1, 2, 3), (4, 5, 6)] (by decide)⟩

/-- C8: the scalar comparator is reflexive on non-empty grids
(`compare_images_chisquare(A, A) = 0`) and symmetric on all pairs of grids,
as expected of the unnormalised sum-of-squared-differences variant the
source implements. -/
theorem claim_C8_refl_symm :
    (∀ A : List Rgb, A ≠ [] → compare_images_chisquare A A = some 0) ∧
      ∀ A B : List Rgb, compare_images_chisquare A B = compare_images_chisquare B A := by
  constructor
  · intro A hA
    show f64Div ((List.map chiTerm (A.zip A)).sum) (3 * (A.zip A).length) = some 0
    unfold f64Div
    have hlen : A.length ≠ 0 := fun h0 => hA (List.length_eq_zero.mp h0)
    rw [chiSum_self, List.length_zip, min_self, if_neg (by omega), zero_div]
  · intro A B
    show f64Div ((List.map chiTerm (A.zip B)).sum) (3 * (A.zip B).length) =
      f64Div ((List.map chiTerm (B.zip A)).sum) (3 * (B.zip A).length)
    rw [chiSum_comm, List.length_zip, List.length_zip, min_comm]

/-- Witness for C8: reflexivity applied at a concrete non-empty grid. -/
theorem claim_C8_witness :
    compare_images_chisquare [((1 : ℕ), (2 : ℕ), (3 : ℕ))] [(1, 2, 3)] = some 0 :=
  claim_C8_refl_symm.1 [(1, 2, 3)] (by decide)

/-- C9: `smallest_dimensions` returns selector 0 with the first raster's
dimensions when its pixel area is strictly smaller, and selector 1 with the
second raster's dimensions both when the second area is strictly smaller
and when the two areas are equal (ties favour the second argument). -/
theorem claim_C9_smallest (a b : Raster) :
    (a.width * a.height < b.width * b.height →
        smallest_dimensions a b = (0, a.width, a.height)) ∧
      (b.width * b.height < a.width * a.height →
        smallest_dimensions a b = (1, b.width, b.height)) ∧
      (a.width * a.height = b.width * b.height →
        smallest_dimensions a b = (1, b.width, b.height)) := by
  refine ⟨fun h => ?_, fun h => ?_, fun h => ?_⟩
  · rw [smallest_dimensions, if_pos h]
  · rw [smallest_dimensions, if_neg (by omega)]
  · rw [smallest_dimensions, if_neg (by omega)]

/-- Witness for C9: a strictly smaller first raster selects the first; equal
areas select the second. -/
theorem claim_C9_witness :
    smallest_dimensions rasterC rasterB = (0, rasterC.width, rasterC.height) ∧
      smallest_dimensions rasterA rasterB = (1, rasterB.width, rasterB.height) :=
  ⟨(claim_C9_smallest rasterC rasterB).1 (by decide),
    (claim_C9_smallest rasterA rasterB).2.2 (by decide)⟩

/-- C4: with `1 ≤ x_segments ≤ W`, every column but the last has width
`W / x_segments`, the last column has width `W - (W / x_segments) *
(x_segments - 1)`, the widths sum to exactly `W` (the blocks tile the raster
with no leftover pixels; rows are handled by the same `currentSegment`
function applied to the height), and in particular width 101 with 10
x-segments gives 9 columns of width 10 and a final column of width 11. -/
theorem claim_C4_segment_widths (W xs : ℕ) (h1 : 1 ≤ xs) (h2 : xs ≤ W) :
    (∀ x, x < xs - 1 → currentSegment W xs x = W / xs) ∧
      currentSegment W xs (xs - 1) = W - W / xs * (xs - 1) ∧
      (∑ x ∈ Finset.range xs, currentSegment W xs x) = W ∧
      (∀ x, x < 9 → currentSegment 101 10 x = 10) ∧ currentSegment 101 10 9 = 11 := by
  refine ⟨fun x hx => ?_, ?_, ?_, fun x hx => ?_, by decide⟩
  · rw [currentSegment, if_neg (by omega)]
  · rw [currentSegment, if_pos rfl]
  · obtain ⟨n, rfl⟩ : ∃ n, xs = n + 1 := ⟨xs - 1, by omega⟩
    rw [Finset.sum_range_succ]
    rw [Finset.sum_congr rfl
      (fun x hx => show currentSegment W (n + 1) x = W / (n + 1) by
        rw [currentSegment, if_neg (by simp at hx; omega)])]
    rw [Finset.sum_const, smul_eq_mul, currentSegment]
    simp only [Nat.add_sub_cancel, if_true]
    have hle : W / (n + 1) * (n + 1) ≤ W := Nat.div_mul_le_self W (n + 1)
    have hle' : W / (n + 1) * n ≤ W :=
      le_trans (Nat.mul_le_mul_left _ (Nat.le_succ n)) hle
    rw [Finset.card_range, mul_comm n (W / (n + 1))]
    omega
  · interval_cases x <;> decide

/-- Witness for C4 at the spec's own example, width 101 with 10 segments. -/
theorem claim_C4_witness :
    (1 ≤ 10 ∧ 10 ≤ 101) ∧
      ((∀ x, x < 10 - 1 → currentSegment 101 10 x = 101 / 10) ∧
        currentSegment 101 10 (10 - 1) = 101 - 101 / 10 * (10 - 1) ∧
        (∑ x ∈ Finset.range 10, currentSegment 101 10 x) = 101 ∧
        (∀ x, x < 9 → currentSegment 101 10 x = 10) ∧ currentSegment 101 10 9 = 11) :=
  ⟨⟨by decide, by decide⟩, claim_C4_segment_widths 101 10 (by decide) (by decide)⟩

/-- Flattening a grid produces 3 bytes per block. -/
theorem flattenBytes_length (A : List Rgb) : (flattenBytes A).length = 3 * A.length := by
  induction A with
  | nil => rfl
  | cons a A ih =>
    have hstep : flattenBytes (a :: A) = [a.1, a.2.1, a.2.2] ++ flattenBytes A := rfl
    rw [hstep, List.length_append, ih, List.length_cons]
    simp only [List.length_cons, List.length_nil]
    omega

/-- Zipping the two flattened byte streams is the same as zipping the grids
block-by-block and then laying out the three paired channels of each zipped
pair: the byte at position `3*i + c` of each stream is channel `c` of
block `i`, so the streams stay aligned on block boundaries even when the
grids have different lengths. -/
theorem flatten_zip : ∀ A B : List Rgb,
    (flattenBytes A).zip (flattenBytes B) =
      (A.zip B).flatMap
        (fun p => [(p.1.1, p.2.1), (p.1.2.1, p.2.2.1), (p.1.2.2, p.2.2.2)]) := by
  intro A
  induction A with
  | nil => intro B; rfl
  | cons a A ih =>
    intro B
    cases B with
    | nil =>
      simp [flattenBytes]
    | cons b B =>
      simp only [flattenBytes, List.flatMap_cons, List.cons_append, List.nil_append,
        List.zip_cons_cons]
      rw [← flattenBytes, ← flattenBytes, ih B]

/-- Summing the squared differences over the per-channel byte pairs of a
zipped grid recovers the scalar comparator's per-block summands. -/
theorem sum_flatMap_triple (l : List (Rgb × Rgb)) :
    ((l.flatMap
        (fun p => [(p.1.1, p.2.1), (p.1.2.1, p.2.2.1), (p.1.2.2, p.2.2.2)])).map
          (fun p => ((p.2 : ℚ) - (p.1 : ℚ)) ^ 2)).sum = (l.map chiTerm).sum := by
  induction l with
  | nil => rfl
  | cons a l ih =>
    simp only [List.flatMap_cons, List.map_append, List.sum_append, List.map_cons,
      List.sum_cons, List.sum_nil, List.map_nil, ih, chiTerm]
    ring

/-- The chunk loop succeeds on any zipped stream whose length is a multiple
of 4: each chunk supplies all four `next()` calls. -/
theorem glamLoop_total : ∀ (l : List (ℕ × ℕ)), l.length % 4 = 0 →
    ∀ acc, ∃ v, glamLoop l acc = some v
  | [], _, acc => ⟨acc, rfl⟩
  | (e1, o1) :: (e2, o2) :: (e3, o3) :: (e4, o4) :: rest, h, acc => by
    have h' : rest.length % 4 = 0 := by
      simp only [List.length_cons] at h
      omega
    rw [glamLoop]
    exact glamLoop_total rest h' _
  | [p], h, acc => by simp at h
  | [p, q], h, acc => by simp at h
  | [p, q, r], h, acc => by simp at h

/-- When the chunk loop succeeds, the sum of its four accumulator lanes is
the starting lane sum plus the sum of all squared byte differences of the
stream, regardless of how the terms were distributed over the lanes. -/
theorem glamLoop_sum : ∀ (l : List (ℕ × ℕ)) (acc v : ℚ × ℚ × ℚ × ℚ),
    glamLoop l acc = some v →
    v.1 + v.2.1 + v.2.2.1 + v.2.2.2 =
      acc.1 + acc.2.1 + acc.2.2.1 + acc.2.2.2 +
        (l.map (fun p => ((p.2 : ℚ) - (p.1 : ℚ)) ^ 2)).sum
  | [], acc, v, h => by
    rw [glamLoop] at h
    cases h
    simp
  | (e1, o1) :: (e2, o2) :: (e3, o3) :: (e4, o4) :: rest, acc, v, h => by
    rw [glamLoop] at h
    have ih := glamLoop_sum rest _ v h
    simp only [List.map_cons, List.sum_cons] at *
    rw [ih]
    ring
  | [p], acc, v, h => Option.noConfusion h
  | [p, q], acc, v, h => Option.noConfusion h
  | [p, q, r], acc, v, h => Option.noConfusion h

/-- C1: whenever both grid lengths are multiples of 4 (so the assertions
pass), the vectorised comparator produces exactly the same score as the
scalar comparator, including when the two grids have different lengths:
both accumulate the same multiset of squared channel differences over the
first `min(|A|, |B|)` blocks and divide by `3 × min(|A|, |B|)`.  In the
exact-arithmetic model the agreement is bit-exact. -/
theorem claim_C1_glam_eq_scalar (A B : List Rgb)
    (hA : A.length % 4 = 0) (hB : B.length % 4 = 0) :
    compare_images_chisquare_glam A B = compare_images_chisquare A B := by
  have hzip : ((flattenBytes A).zip (flattenBytes B)).length % 4 = 0 := by
    rw [List.length_zip, flattenBytes_length, flattenBytes_length]
    omega
  obtain ⟨v, hv⟩ := glamLoop_total _ hzip (0, 0, 0, 0)
  have hsum := glamLoop_sum _ _ _ hv
  rw [flatten_zip, sum_flatMap_triple] at hsum
  show (if A.length % 4 = 0 ∧ B.length % 4 = 0 then _ else none) = _
  rw [if_pos ⟨hA, hB⟩]
  show (match glamLoop ((flattenBytes A).zip (flattenBytes B)) (0, 0, 0, 0) with
    | some acc => f64Div (acc.1 + acc.2.1 + acc.2.2.1 + acc.2.2.2)
        (min A.length B.length * 3)
    | none => none) = _
  rw [hv]
  show f64Div (v.1 + v.2.1 + v.2.2.1 + v.2.2.2) (min A.length B.length * 3) =
    f64Div ((List.map chiTerm (A.zip B)).sum) (3 * (A.zip B).length)
  rw [hsum, List.length_zip, Nat.mul_comm]
  norm_num

/-- Witness for C1 at concrete grids of lengths 4 and 8 (both multiples
of 4). -/
theorem claim_C1_witness :
    (([(0, 0, 0), (1, 1, 1), (2, 2, 2), (3, 3, 3)] : List Rgb).length % 4 = 0 ∧
        ([(1, 0, 0), (1, 2, 1), (2, 2, 2), (0, 3, 3), (9, 9, 9), (8, 8, 8), (7, 7, 7),
            (6, 6, 6)] : List Rgb).length % 4 = 0) ∧
      compare_images_chisquare_glam [(0, 0, 0), (1, 1, 1), (2, 2, 2), (3, 3, 3)]
          [(1, 0, 0), (1, 2, 1), (2, 2, 2), (0, 3, 3), (9, 9, 9), (8, 8, 8), (7, 7, 7),
            (6, 6, 6)] =
        compare_images_chisquare [(0, 0, 0), (1, 1, 1), (2, 2, 2), (3, 3, 3)]
          [(1, 0, 0), (1, 2, 1), (2, 2, 2), (0, 3, 3), (9, 9, 9), (8, 8, 8), (7, 7, 7),
            (6, 6, 6)] :=
  ⟨⟨by decide, by decide⟩, claim_C1_glam_eq_scalar _ _ (by decide) (by decide)⟩

/-- Every chunk of a stream whose length is a multiple of 4 holds exactly 4
elements. -/
theorem chunks4_full : ∀ (l : List (ℕ × ℕ)), l.length % 4 = 0 →
    ∀ c ∈ chunks4 l, c.length = 4
  | [], _, c, hc => by simp [chunks4] at hc
  | a :: b :: b2 :: b3 :: rest, h, c, hc => by
    rw [chunks4] at hc
    rcases List.mem_cons.mp hc with h1 | h2
    · rw [h1]
      rfl
    · refine chunks4_full rest ?_ c h2
      simp only [List.length_cons] at h
      omega
  | [p], h, c, hc => by simp at h
  | [p, q], h, c, hc => by simp at h
  | [p, q, r], h, c, hc => by simp at h

/-- C10: when both grid lengths are multiples of 4, every chunk drawn from
the zipped flattened byte streams holds exactly 4 element pairs, so the four
`chunk.next().unwrap()` calls of the vectorised comparator all succeed and
the chunk loop runs to completion without panicking. -/
theorem claim_C10_chunks_total (A B : List Rgb)
    (hA : A.length % 4 = 0) (hB : B.length % 4 = 0) :
    (∀ c ∈ chunks4 ((flattenBytes A).zip (flattenBytes B)), c.length = 4) ∧
      ∃ v, glamLoop ((flattenBytes A).zip (flattenBytes B)) (0, 0, 0, 0) = some v := by
  have hzip : ((flattenBytes A).zip (flattenBytes B)).length % 4 = 0 := by
    rw [List.length_zip, flattenBytes_length, flattenBytes_length]
    omega
  exact ⟨chunks4_full _ hzip, glamLoop_total _ hzip _⟩

/-- Witness for C10 at concrete grids of length 4. -/
theorem claim_C10_witness :
    (([(5, 5, 5), (6, 6, 6), (7, 7, 7), (8, 8, 8)] : List Rgb).length % 4 = 0 ∧
        ([(0, 1, 2), (3, 4, 5), (6, 7, 8), (9, 10, 11)] : List Rgb).length % 4 = 0) ∧
      ((∀ c ∈ chunks4 ((flattenBytes [(5, 5, 5), (6, 6, 6), (7, 7, 7), (8, 8, 8)]).zip
            (flattenBytes [(0, 1, 2), (3, 4, 5), (6, 7, 8), (9, 10, 11)])), c.length = 4) ∧
        ∃ v, glamLoop ((flattenBytes [(5, 5, 5), (6, 6, 6), (7, 7, 7), (8, 8, 8)]).zip
            (flattenBytes [(0, 1, 2), (3, 4, 5), (6, 7, 8), (9, 10, 11)])) (0, 0, 0, 0) =
          some v) :=
  ⟨⟨by decide, by decide⟩, claim_C10_chunks_total _ _ (by decide) (by decide)⟩

/-- Collecting with `traverseOpt` succeeds and is a plain `map` when every
element succeeds. -/
theorem traverseOpt_map (f : α → Option β) (g : α → β) : ∀ l : List α,
    (∀ a ∈ l, f a = some (g a)) → traverseOpt f l = some (l.map g)
  | [], _ => rfl
  | a :: l, h => by
    rw [traverseOpt, h a (List.mem_cons_self a l),
      traverseOpt_map f g l (fun b hb => h b (List.mem_cons_of_mem a hb))]
    rfl

/-- Collecting with `traverseOpt` fails when any element fails. -/
theorem traverseOpt_none (f : α → Option β) : ∀ (l : List α) (a : α), a ∈ l →
    f a = none → traverseOpt f l = none
  | [], a, ha, _ => absurd ha (List.not_mem_nil a)
  | b :: l, a, ha, hfa => by
    rw [traverseOpt]
    rcases List.mem_cons.mp ha with h1 | h2
    · rw [← h1, hfa]
    · rw [traverseOpt_none f l a h2 hfa]
      cases f b <;> rfl

/-- Appending one more row to the block coordinate list. -/
theorem blockCoords_succ (xs ys : ℕ) :
    blockCoords xs (ys + 1) =
      blockCoords xs ys ++ (List.range xs).map (fun x => (x, ys)) := by
  unfold blockCoords
  rw [List.range_succ, List.flatMap_append]
  simp

/-- The coordinate list has one entry per cell. -/
theorem blockCoords_length (xs ys : ℕ) : (blockCoords xs ys).length = ys * xs := by
  induction ys with
  | zero => simp [blockCoords]
  | succ n ih =>
    rw [blockCoords_succ, List.length_append, ih, List.length_map, List.length_range]
    ring

/-- Membership in the coordinate list is exactly the in-grid condition. -/
theorem blockCoords_mem {xs ys x y : ℕ} : (x, y) ∈ blockCoords xs ys ↔ x < xs ∧ y < ys := by
  simp only [blockCoords, List.mem_flatMap, List.mem_map, List.mem_range, Prod.mk.injEq]
  constructor
  · rintro ⟨y', hy', x', hx', hx'', hy''⟩
    omega
  · rintro ⟨hx, hy⟩
    exact ⟨y, hy, x, hx, rfl, rfl⟩

/-- The cell `(x, y)` sits at flat index `y * xs + x` of the coordinate
list: the output order is row-major. -/
theorem blockCoords_get {xs ys x y : ℕ} (hx : x < xs) (hy : y < ys) :
    (blockCoords xs ys)[y * xs + x]? = some (x, y) := by
  induction ys with
  | zero => omega
  | succ n ih =>
    rw [blockCoords_succ, List.getElem?_append]
    rcases Nat.lt_or_ge y n with h | h
    · rw [if_pos (by rw [blockCoords_length]; nlinarith)]
      exact ih h
    · have hyn : n = y := by omega
      subst hyn
      rw [if_neg (by rw [blockCoords_length]; omega), blockCoords_length]
      rw [show n * xs + x - n * xs = x by omega, List.getElem?_map,
        List.getElem?_range hx]
      rfl

/-- In-range segments are never empty when the segment count fits inside the
pixel extent. -/
theorem currentSegment_pos (total segs idx : ℕ) (h2 : segs ≤ total) (hidx : idx < segs) :
    0 < currentSegment total segs idx := by
  have h1 : 1 ≤ segs := by omega
  have hq : 1 ≤ total / segs := (Nat.one_le_div_iff (by omega)).mpr h2
  unfold currentSegment
  split
  · obtain ⟨s, rfl⟩ : ∃ s, segs = s + 1 := ⟨segs - 1, by omega⟩
    have hmul : total / (s + 1) * (s + 1) ≤ total := Nat.div_mul_le_self total (s + 1)
    have hsum : total / (s + 1) * s + total / (s + 1) = total / (s + 1) * (s + 1) := by ring
    simp only [Nat.add_sub_cancel]
    generalize total / (s + 1) * s = t2 at hsum ⊢
    generalize total / (s + 1) * (s + 1) = t3 at hsum hmul
    omega
  · exact hq

/-- When the segment count exceeds the pixel extent, the first segment is
empty. -/
theorem currentSegment_zero (total segs : ℕ) (h : total < segs) (h1 : 1 ≤ segs) :
    currentSegment total segs 0 = 0 := by
  unfold currentSegment
  split
  · have hseg : segs = 1 := by omega
    subst hseg
    simp
    omega
  · exact Nat.div_eq_of_lt h

/-- A floor mean of values below 256 stays below 256. -/
theorem sum_div_lt_256 (cbw cbh : ℕ) (hpc : 0 < cbw * cbh) (f : ℕ → ℕ → ℕ)
    (hf : ∀ i j, f i j < 256) :
    (∑ i ∈ Finset.range cbw, ∑ j ∈ Finset.range cbh, f i j) / (cbw * cbh) < 256 := by
  have h2 : (∑ i ∈ Finset.range cbw, ∑ j ∈ Finset.range cbh, f i j) ≤ 255 * (cbw * cbh) := by
    calc (∑ i ∈ Finset.range cbw, ∑ j ∈ Finset.range cbh, f i j)
        ≤ ∑ _i ∈ Finset.range cbw, 255 * cbh := by
          refine Finset.sum_le_sum fun i _ => ?_
          calc (∑ j ∈ Finset.range cbh, f i j) ≤ ∑ _j ∈ Finset.range cbh, 255 :=
              Finset.sum_le_sum fun j _ => by have := hf i j; omega
            _ = 255 * cbh := by
              rw [Finset.sum_const, Finset.card_range, smul_eq_mul, Nat.mul_comm]
      _ = 255 * (cbw * cbh) := by
          rw [Finset.sum_const, Finset.card_range, smul_eq_mul]
          ring
  rw [Nat.div_lt_iff_lt_mul hpc]
  generalize hg : cbw * cbh = pc at hpc h2 ⊢
  generalize (∑ i ∈ Finset.range cbw, ∑ j ∈ Finset.range cbh, f i j) = s at h2 ⊢
  omega

/-- A double sum over the rectangle `[x0, x0 + w) × [y0, y0 + h)` re-indexes
to the loop-shaped double sum over offsets. -/
theorem sum_rect_Ico (x0 y0 w h : ℕ) (f : ℕ → ℕ → ℕ) :
    (∑ px ∈ Finset.Ico x0 (x0 + w), ∑ py ∈ Finset.Ico y0 (y0 + h), f px py) =
      ∑ i ∈ Finset.range w, ∑ j ∈ Finset.range h, f (x0 + i) (y0 + j) := by
  rw [Finset.sum_Ico_eq_sum_range]
  simp only [Nat.add_sub_cancel_left]
  refine Finset.sum_congr rfl fun i _ => ?_
  rw [Finset.sum_Ico_eq_sum_range]
  simp only [Nat.add_sub_cancel_left]

/-- For an in-range cell of a raster that the segments fit inside, the block
loop body succeeds and computes exactly the spec's block mean: the pixel
count is positive, the `% 256` narrowing is the identity because each mean
is at most 255, and the `range`-based double sums re-index to sums over the
cell's rectangle. -/
theorem blockAverage_eq (img : Raster) (xs ys x y : ℕ)
    (hx2 : xs ≤ img.width) (hy2 : ys ≤ img.height) (hx : x < xs) (hy : y < ys) :
    blockAverage img xs ys x y = some (blockMean img xs ys x y) := by
  have hw : 0 < currentSegment img.width xs x := currentSegment_pos _ _ _ hx2 hx
  have hh : 0 < currentSegment img.height ys y := currentSegment_pos _ _ _ hy2 hy
  have hpc : 0 < currentSegment img.width xs x * currentSegment img.height ys y :=
    Nat.mul_pos hw hh
  show (if currentSegment img.width xs x * currentSegment img.height ys y = 0 then none
    else some _) = _
  rw [if_neg (by omega)]
  unfold blockMean
  congr 1
  refine Prod.ext ?_ (Prod.ext ?_ ?_)
  all_goals
    simp only
    rw [Nat.mod_eq_of_lt (sum_div_lt_256 _ _ hpc _ (fun i j => by
      have := img.pixel_lt (x * (img.width / xs) + i) (y * (img.height / ys) + j)
      omega))]
    rw [sum_rect_Ico]

/-- A cell whose pixel count is zero makes the block loop body panic on the
division by zero. -/
theorem blockAverage_none (img : Raster) (xs ys x y : ℕ)
    (h : currentSegment img.width xs x * currentSegment img.height ys y = 0) :
    blockAverage img xs ys x y = none := by
  show (if currentSegment img.width xs x * currentSegment img.height ys y = 0 then none
    else some _) = none
  rw [if_pos h]

/-- C3: for positive raster dimensions and segment counts within them,
`average_gb_blocks` succeeds and returns exactly `x_segments × y_segments`
RGB triples, ordered row-major (the entry of cell `(x, y)` at flat index
`y * x_segments + x`), each being the per-channel floor mean of all pixels
in that cell's rectangle. -/
theorem claim_C3_average_blocks (img : Raster) (xs ys : ℕ)
    (hx1 : 1 ≤ xs) (hx2 : xs ≤ img.width) (hy1 : 1 ≤ ys) (hy2 : ys ≤ img.height) :
    ∃ l, average_gb_blocks img xs ys = some l ∧ l.length = xs * ys ∧
      ∀ x y, x < xs → y < ys → l[y * xs + x]? = some (blockMean img xs ys x y) := by
  refine ⟨(blockCoords xs ys).map (fun c => blockMean img xs ys c.1 c.2), ?_, ?_, ?_⟩
  · rw [average_gb_blocks, if_neg (by omega)]
    refine traverseOpt_map _ _ _ fun c hc => ?_
    obtain ⟨cx, cy⟩ := c
    obtain ⟨h1, h2⟩ := blockCoords_mem.mp hc
    exact blockAverage_eq img xs ys cx cy hx2 hy2 h1 h2
  · rw [List.length_map, blockCoords_length]
    ring
  · intro x y hx hy
    rw [List.getElem?_map, blockCoords_get hx hy]
    rfl

/-- Witness for C3 on a concrete 3 × 2 raster split 2 × 2. -/
theorem claim_C3_witness :
    ((1 ≤ 2 ∧ 2 ≤ rasterB.width) ∧ (1 ≤ 2 ∧ 2 ≤ rasterB.height)) ∧
      ∃ l, average_gb_blocks rasterB 2 2 = some l ∧ l.length = 2 * 2 ∧
        ∀ x y, x < 2 → y < 2 → l[y * 2 + x]? = some (blockMean rasterB 2 2 x y) :=
  ⟨⟨⟨by decide, by decide⟩, by decide, by decide⟩,
    claim_C3_average_blocks rasterB 2 2 (by decide) (by decide) (by decide) (by decide)⟩

/-- C5 counterexample: at `x_segments = 0` the source's integer division
`img_width / x_segments` panics; the function aborts without returning any
value, so in particular no `InvalidGridDimensions` error value is produced —
no error type exists anywhere in the source. -/
theorem claim_C5_counterexample :
    average_gb_blocks rasterA 0 3 = none ∧
      ∀ l : List Rgb, average_gb_blocks rasterA 0 3 ≠ some l := by
  refine ⟨by decide, fun l h => ?_⟩
  rw [show average_gb_blocks rasterA 0 3 = none by decide] at h
  exact Option.noConfusion h

/-- C5 (amended): for every raster and segment counts with a zero segment
count or a segment count exceeding the corresponding raster dimension,
`average_gb_blocks` panics — division by zero on `img_width / x_segments`
(resp. height), or on a zero `pixel_count` — rather than returning a result;
the reference has no `InvalidGridDimensions` error value to return. -/
theorem claim_C5_panics (img : Raster) (xs ys : ℕ)
    (h : xs = 0 ∨ ys = 0 ∨ img.width < xs ∨ img.height < ys) :
    average_gb_blocks img xs ys = none := by
  by_cases h0 : xs = 0 ∨ ys = 0
  · rw [average_gb_blocks, if_pos h0]
  · push_neg at h0
    obtain ⟨hx0, hy0⟩ := h0
    rw [average_gb_blocks, if_neg (by tauto)]
    refine traverseOpt_none _ (blockCoords xs ys) (0, 0) ?_ ?_
    · exact blockCoords_mem.mpr ⟨by omega, by omega⟩
    · refine blockAverage_none img xs ys 0 0 ?_
      rcases h with h | h | h | h
      · omega
      · omega
      · rw [currentSegment_zero img.width xs h (by omega), Nat.zero_mul]
      · rw [currentSegment_zero img.height ys h (by omega), Nat.mul_zero]

/-- Witness for the amended C5: 5 x-segments on a raster of width 3. -/
theorem claim_C5_witness :
    (5 = 0 ∨ 2 = 0 ∨ rasterB.width < 5 ∨ rasterB.height < 2) ∧
      average_gb_blocks rasterB 5 2 = none :=
  ⟨by decide, claim_C5_panics rasterB 5 2 (by decide)⟩

/-- C6: for positive raster dimensions and segment counts within them, every
cell's accumulated `pixel_count` (its width times its height) is strictly
positive, so the per-channel division `sum / pixel_count` never divides by
zero and the whole computation returns a value. -/
theorem claim_C6_pixel_count_pos (img : Raster) (xs ys : ℕ)
    (hx1 : 1 ≤ xs) (hx2 : xs ≤ img.width) (hy1 : 1 ≤ ys) (hy2 : ys ≤ img.height) :
    (∀ x, x < xs → ∀ y, y < ys →
        0 < currentSegment img.width xs x * currentSegment img.height ys y) ∧
      ∃ l, average_gb_blocks img xs ys = some l := by
  constructor
  · intro x hx y hy
    exact Nat.mul_pos (currentSegment_pos _ _ _ hx2 hx) (currentSegment_pos _ _ _ hy2 hy)
  · refine ⟨(blockCoords xs ys).map (fun c => blockMean img xs ys c.1 c.2), ?_⟩
    rw [average_gb_blocks, if_neg (by omega)]
    refine traverseOpt_map _ _ _ fun c hc => ?_
    obtain ⟨cx, cy⟩ := c
    obtain ⟨h1, h2⟩ := blockCoords_mem.mp hc
    exact blockAverage_eq img xs ys cx cy hx2 hy2 h1 h2

/-- Witness for C6 on a concrete 2 × 3 raster split 2 × 3. -/
theorem claim_C6_witness :
    ((1 ≤ 2 ∧ 2 ≤ rasterA.width) ∧ (1 ≤ 3 ∧ 3 ≤ rasterA.height)) ∧
      ((∀ x, x < 2 → ∀ y, y < 3 →
          0 < currentSegment rasterA.width 2 x * currentSegment rasterA.height 3 y) ∧
        ∃ l, average_gb_blocks rasterA 2 3 = some l) :=
  ⟨⟨⟨by decide, by decide⟩, by decide, by decide⟩,
    claim_C6_pixel_count_pos rasterA 2 3 (by decide) (by decide) (by decide) (by decide)⟩
